import Mathlib

/-!
Verification of `src/hal_microkernel_bridge.c` (LinuxCNC HAL ↔ AILang
microkernel bridge) against its natural-language specification.

Shallow embedding notes:
* The shared-memory region is an array of 64-bit words (`int64_t`), modelled
  as a total function `Nat → Int`; only word indices below 512 (4096 bytes /
  8) are meaningful, and the theorems track exactly which indices the code
  touches.
* `hal_float_t` values are represented by their 64-bit bit patterns
  (`Nat` below `2^64`).  The C code never performs floating-point arithmetic
  on pin values: it only reinterprets their bits through a union, so the bit
  pattern is a complete and faithful representation here, covering NaN
  payloads, signed zeros and subnormals uniformly.
* The union reinterpretation `convert.f = value; ... convert.i` is the
  two's-complement reading of the 64 float bits (`i64OfBits`), and the
  reverse direction is `bitsOfI64`.
* `hal_u32_t` counters are `Nat` values kept below `2^32`; the C `+= 1`
  wraps modulo `2^32`.
* Each invocation of the realtime update function additionally produces a
  trace of the shared-memory word accesses it performs, so that ordering and
  frame properties ("touches no slot", "inbound before outbound", bounds)
  can be stated about the code's actual access pattern.
-/

/-- `#define MAX_PINS 16` -/
def MAX_PINS : Nat := 16

instance : NeZero MAX_PINS := ⟨by decide⟩

/-- `#define SHARED_MEM_SIZE 4096` (bytes) -/
def SHARED_MEM_SIZE : Nat := 4096

/-- Number of 64-bit words in the shared region: 4096 / 8 = 512. -/
def REGION_WORDS : Nat := SHARED_MEM_SIZE / 8

/-- Two's-complement reading of a 64-bit pattern as `int64_t`
(the union `convert.f = value; shm_ptr[off] = convert.i`). -/
def i64OfBits (b : Nat) : Int :=
  if b < 2 ^ 63 then (b : Int) else (b : Int) - 2 ^ 64

/-- The 64-bit pattern of an `int64_t` value
(the union `convert.i = shm_ptr[off]; ... = convert.f`). -/
def bitsOfI64 (x : Int) : Nat :=
  (x % 2 ^ 64).toNat

/-- One shared-memory access performed by the realtime function:
a read or a write of the word at a given index. -/
inductive Access where
  | read (idx : Nat) : Access
  | write (idx : Nat) : Access
deriving DecidableEq, Repr

/-- The word index an access touches. -/
def Access.idx : Access → Nat
  | .read j => j
  | .write j => j

/-- Whether an access is a write. -/
def Access.isWrite : Access → Bool
  | .read _ => false
  | .write _ => true

/-- The `hal_microkernel_t` HAL data block: per-pin float values (as bit
patterns), the `connected` status bit and the two `hal_u32_t` counters. -/
structure HalData where
  pin_in : Fin MAX_PINS → Nat
  pin_out : Fin MAX_PINS → Nat
  connected : Bool
  update_count : Nat
  error_count : Nat

/-- The connection-manager globals: `shm_ptr` (modelled by whether a live
mapping is held) and the file descriptor `shm_fd` (`-1` when not held). -/
structure ConnState where
  shm_mapped : Bool
  shm_fd : Int
deriving DecidableEq, Repr

/-- Whole-bridge state: connection globals, HAL data block, and the contents
of the shared region (one `int64_t` per word index). -/
structure BridgeState where
  conn : ConnState
  data : HalData
  shm : Nat → Int

/-- Outcome of the environment for the one-time acquisition: `open()` fails,
`open()` succeeds (returning descriptor `fd`) but `mmap()` fails, or both
succeed. -/
inductive AcquireEnv where
  | openFail : AcquireEnv
  | mmapFail (fd : Nat) : AcquireEnv
  | success (fd : Nat) : AcquireEnv
deriving DecidableEq, Repr

/-- `map_shared_memory()` from the source: opens `/tmp/hal_pins.shm` and maps
it.  On open failure, `shm_fd` holds the failed (negative) return and the
function returns `-1`; on mmap failure the descriptor is closed, `shm_ptr`
reset to NULL and it returns `-1`; on success the mapping and descriptor are
stored and it returns `0`. -/
def map_shared_memory (env : AcquireEnv) (c : ConnState) : ConnState × Int :=
  match env with
  | .openFail => ({ c with shm_fd := -1 }, -1)
  | .mmapFail _ => ({ shm_mapped := false, shm_fd := -1 }, -1)
  | .success fd => ({ shm_mapped := true, shm_fd := (fd : Int) }, 0)

/-- The system calls `unmap_shared_memory()` can issue. -/
inductive ReleaseOp where
  | munmapCall : ReleaseOp
  | closeCall : ReleaseOp
deriving DecidableEq, Repr

/-- `unmap_shared_memory()` from the source: `munmap` iff `shm_ptr != NULL`
(then set it NULL), `close` iff `shm_fd >= 0` (then set it `-1`).  Also
returns the list of system calls actually issued. -/
def unmap_shared_memory (c : ConnState) : ConnState × List ReleaseOp :=
  let p :=
    if c.shm_mapped then
      (({ c with shm_mapped := false } : ConnState), [ReleaseOp.munmapCall])
    else (c, [])
  if p.1.shm_fd ≥ 0 then
    (({ p.1 with shm_fd := -1 } : ConnState), p.2 ++ [ReleaseOp.closeCall])
  else p

/-- The connection-establishing step of `rtapi_app_main()`: call
`map_shared_memory()` once and publish the result on the `connected` pin
(`0` on failure — the component keeps running — `1` on success). -/
def startup_connect (env : AcquireEnv) (s : BridgeState) : BridgeState :=
  let r := map_shared_memory env s.conn
  if r.2 ≠ 0 then
    { s with conn := r.1, data := { s.data with connected := false } }
  else
    { s with conn := r.1, data := { s.data with connected := true } }

/-- Inbound loop of `update_pins` over a list of pin indices (the C `for`
loop runs it over `0, 1, ..., MAX_PINS-1` in that order): for each pin read
the HAL input pin, reinterpret its float bits as `int64_t` and write the
word at index `2 + i`; the trace records each shared-memory write in
program order. -/
def inboundPassAux (d : HalData) :
    List (Fin MAX_PINS) → (Nat → Int) → (Nat → Int) × List Access
  | [], shm => (shm, [])
  | i :: rest, shm =>
      let shm1 := Function.update shm (2 + i.val) (i64OfBits (d.pin_in i))
      let r := inboundPassAux d rest shm1
      (r.1, Access.write (2 + i.val) :: r.2)

/-- Outbound loop of `update_pins` over a list of pin indices: for each pin
read the word at index `2 + i`, reinterpret it as float bits and store it on
the HAL output pin; the trace records each shared-memory read in program
order. -/
def outboundPassAux (shm : Nat → Int) :
    List (Fin MAX_PINS) → HalData → HalData × List Access
  | [], d => (d, [])
  | i :: rest, d =>
      let d1 :=
        { d with pin_out := Function.update d.pin_out i (bitsOfI64 (shm (2 + i.val))) }
      let r := outboundPassAux shm rest d1
      (r.1, Access.read (2 + i.val) :: r.2)

/-- The pin indices in the order the C `for (i = 0; i < MAX_PINS; i++)`
loops visit them. -/
def pinOrder : List (Fin MAX_PINS) := List.finRange MAX_PINS

/-- `update_pins()` from the source, the realtime update function.
If `shm_ptr == NULL` it increments `error_count` and returns without any
shared-memory access.  Otherwise it runs the inbound pass, then the outbound
pass (reading the words the inbound pass just wrote), then writes `1` to
word index 1 (the update-notification flag) and increments `update_count`.
Counter increments wrap modulo `2^32` (`hal_u32_t`).  The second component
is the trace of shared-memory accesses, in program order. -/
def update_pins (s : BridgeState) : BridgeState × List Access :=
  if s.conn.shm_mapped = false then
    ({ s with data := { s.data with error_count := (s.data.error_count + 1) % 2 ^ 32 } },
      [])
  else
    let ib := inboundPassAux s.data pinOrder s.shm
    let ob := outboundPassAux ib.1 pinOrder s.data
    ({ s with
        data := { ob.1 with update_count := (ob.1.update_count + 1) % 2 ^ 32 },
        shm := Function.update ib.1 1 1 },
      ib.2 ++ ob.2 ++ [Access.write 1])

/-- `n` successive invocations of `update_pins`, with the concatenated
access trace. -/
def iterate_update : Nat → BridgeState → BridgeState × List Access
  | 0, s => (s, [])
  | n + 1, s =>
      let r := update_pins s
      let r2 := iterate_update n r.1
      (r2.1, r.2 ++ r2.2)

/-- `slot_address(pin) = 2 + pin` — the addressing computed at
`pin_offset = 2 + i` in both loops of `update_pins`. -/
def slot_address (pin : Nat) : Nat := 2 + pin

/-- Modelled from the spec: the multi-typed configuration's inbound coercion
policy (§4.2) is not present under `src/` (the source holds only the
single-typed float bridge), so it is modelled from the spec's words: start
from the boolean endpoint (`true` → 1, `false` → 0), then overwrite the
accumulated value with the integer endpoint's value whenever that value is
non-zero; an integer endpoint holding exactly zero does not override the
boolean. -/
def coerce_inbound (b : Bool) (z : Int) : Int :=
  let acc : Int := if b then 1 else 0
  if z ≠ 0 then z else acc

/-- A concrete HAL data block used to instantiate the theorems: every input
pin holds the bit pattern of a quiet NaN with a nonzero payload. -/
def sampleData : HalData where
  pin_in := fun _ => 0x7FF8DEADBEEF1234
  pin_out := fun _ => 0
  connected := true
  update_count := 0
  error_count := 0

/-- A concrete bridge state with a live mapping and an all-zero region. -/
def sampleConnected : BridgeState where
  conn := { shm_mapped := true, shm_fd := 3 }
  data := sampleData
  shm := fun _ => 0

/-- A concrete bridge state with no mapping held. -/
def sampleDisconnected : BridgeState where
  conn := { shm_mapped := false, shm_fd := -1 }
  data := sampleData
  shm := fun _ => 0

/-! ### Helper lemmas about the two passes -/

theorem bitsOfI64_i64OfBits (b : Nat) (hb : b < 2 ^ 64) :
    bitsOfI64 (i64OfBits b) = b := by
  simp only [bitsOfI64, i64OfBits]
  split <;> omega

theorem inboundPassAux_trace (d : HalData) (l : List (Fin MAX_PINS)) (shm : Nat → Int) :
    (inboundPassAux d l shm).2 = l.map (fun i => Access.write (2 + i.val)) := by
  induction l generalizing shm with
  | nil => rfl
  | cons i rest ih => simp [inboundPassAux, ih]

theorem inboundPassAux_frame (d : HalData) (l : List (Fin MAX_PINS)) (shm : Nat → Int)
    (j : Nat) (hj : ∀ i ∈ l, 2 + i.val ≠ j) :
    (inboundPassAux d l shm).1 j = shm j := by
  induction l generalizing shm with
  | nil => rfl
  | cons i rest ih =>
      simp only [inboundPassAux]
      rw [ih _ fun k hk => hj k (List.mem_cons_of_mem i hk)]
      exact Function.update_noteq (fun h => hj i (List.mem_cons_self i rest) h.symm) _ shm

theorem inboundPassAux_get (d : HalData) (l : List (Fin MAX_PINS)) (shm : Nat → Int)
    (i : Fin MAX_PINS) (hi : i ∈ l) :
    (inboundPassAux d l shm).1 (2 + i.val) = i64OfBits (d.pin_in i) := by
  induction l generalizing shm with
  | nil => cases hi
  | cons k rest ih =>
      simp only [inboundPassAux]
      by_cases hr : i ∈ rest
      · exact ih _ hr
      · have hik : i = k := by
          rcases List.mem_cons.mp hi with h | h
          · exact h
          · exact absurd h hr
        subst hik
        rw [inboundPassAux_frame _ _ _ _ (fun m hm hmi => ?_)]
        · simp [Function.update]
        · have : m = i := Fin.val_injective (by omega)
          exact hr (this ▸ hm)

theorem outboundPassAux_trace (shm : Nat → Int) (l : List (Fin MAX_PINS)) (d : HalData) :
    (outboundPassAux shm l d).2 = l.map (fun i => Access.read (2 + i.val)) := by
  induction l generalizing d with
  | nil => rfl
  | cons i rest ih => simp [outboundPassAux, ih]

theorem outboundPassAux_fields (shm : Nat → Int) (l : List (Fin MAX_PINS)) (d : HalData) :
    (outboundPassAux shm l d).1.pin_in = d.pin_in ∧
    (outboundPassAux shm l d).1.connected = d.connected ∧
    (outboundPassAux shm l d).1.update_count = d.update_count ∧
    (outboundPassAux shm l d).1.error_count = d.error_count := by
  induction l generalizing d with
  | nil => exact ⟨rfl, rfl, rfl, rfl⟩
  | cons i rest ih => simpa [outboundPassAux] using ih _

theorem outboundPassAux_pin_out_frame (shm : Nat → Int) (l : List (Fin MAX_PINS))
    (d : HalData) (i : Fin MAX_PINS) (hi : i ∉ l) :
    (outboundPassAux shm l d).1.pin_out i = d.pin_out i := by
  induction l generalizing d with
  | nil => rfl
  | cons m ms ih =>
      simp only [outboundPassAux]
      rw [ih _ (fun h => hi (List.mem_cons_of_mem m h))]
      exact Function.update_noteq
        (fun h => hi (by rw [h]; exact List.mem_cons_self m ms)) _ _

theorem outboundPassAux_get (shm : Nat → Int) (l : List (Fin MAX_PINS)) (d : HalData)
    (i : Fin MAX_PINS) (hi : i ∈ l) :
    (outboundPassAux shm l d).1.pin_out i = bitsOfI64 (shm (2 + i.val)) := by
  induction l generalizing d with
  | nil => cases hi
  | cons k rest ih =>
      simp only [outboundPassAux]
      by_cases hr : i ∈ rest
      · exact ih _ hr
      · have hik : i = k := by
          rcases List.mem_cons.mp hi with h | h
          · exact h
          · exact absurd h hr
        subst hik
        rw [outboundPassAux_pin_out_frame _ _ _ _ hr]
        simp [Function.update]


/-! ### Helper lemmas about one invocation of `update_pins` -/

theorem mem_pinOrder (i : Fin MAX_PINS) : i ∈ pinOrder :=
  List.mem_finRange i

theorem update_pins_disconnected (s : BridgeState) (h : s.conn.shm_mapped = false) :
    update_pins s =
      ({ s with data := { s.data with error_count := (s.data.error_count + 1) % 2 ^ 32 } },
        []) := by
  simp [update_pins, h]

theorem update_pins_conn (s : BridgeState) :
    (update_pins s).1.conn = s.conn := by
  by_cases h : s.conn.shm_mapped = false <;> simp [update_pins, h]

theorem update_pins_connected_shm_flag (s : BridgeState)
    (h : s.conn.shm_mapped = true) :
    (update_pins s).1.shm 1 = 1 := by
  simp [update_pins, h, Function.update]

theorem update_pins_connected_shm_pin (s : BridgeState)
    (h : s.conn.shm_mapped = true) (i : Fin MAX_PINS) :
    (update_pins s).1.shm (2 + i.val) = i64OfBits (s.data.pin_in i) := by
  simp only [update_pins, h, Bool.true_eq_false, if_false]
  rw [Function.update_noteq (by omega)]
  exact inboundPassAux_get _ _ _ _ (mem_pinOrder i)

theorem update_pins_connected_shm_frame (s : BridgeState)
    (h : s.conn.shm_mapped = true) (j : Nat) (hj : j = 0 ∨ 2 + MAX_PINS ≤ j) :
    (update_pins s).1.shm j = s.shm j := by
  simp only [update_pins, h, Bool.true_eq_false, if_false]
  rw [Function.update_noteq (by omega)]
  refine inboundPassAux_frame _ _ _ _ (fun i _ => ?_)
  have := i.isLt
  omega

theorem update_pins_connected_pin_out (s : BridgeState)
    (h : s.conn.shm_mapped = true) (i : Fin MAX_PINS) :
    (update_pins s).1.data.pin_out i = bitsOfI64 (i64OfBits (s.data.pin_in i)) := by
  simp only [update_pins, h, Bool.true_eq_false, if_false]
  rw [outboundPassAux_get _ _ _ _ (mem_pinOrder i)]
  rw [inboundPassAux_get _ _ _ _ (mem_pinOrder i)]

theorem update_pins_connected_counters (s : BridgeState)
    (h : s.conn.shm_mapped = true) :
    (update_pins s).1.data.update_count = (s.data.update_count + 1) % 2 ^ 32 ∧
    (update_pins s).1.data.error_count = s.data.error_count := by
  have hf := outboundPassAux_fields (inboundPassAux s.data pinOrder s.shm).1 pinOrder s.data
  simp only [update_pins, h, Bool.true_eq_false, if_false]
  exact ⟨by rw [hf.2.2.1], hf.2.2.2⟩

theorem update_pins_connected_trace (s : BridgeState)
    (h : s.conn.shm_mapped = true) :
    (update_pins s).2 =
      ((List.range MAX_PINS).map (fun i => Access.write (2 + i))) ++
      ((List.range MAX_PINS).map (fun i => Access.read (2 + i))) ++ [Access.write 1] := by
  simp only [update_pins, h, Bool.true_eq_false, if_false]
  rw [inboundPassAux_trace, outboundPassAux_trace]
  have h1 : pinOrder.map (fun i => Access.write (2 + i.val)) =
      (List.range MAX_PINS).map (fun i => Access.write (2 + i)) := by decide
  have h2 : pinOrder.map (fun i => Access.read (2 + i.val)) =
      (List.range MAX_PINS).map (fun i => Access.read (2 + i)) := by decide
  rw [h1, h2]

theorem iterate_update_disconnected (n : Nat) (s : BridgeState)
    (h : s.conn.shm_mapped = false) :
    (iterate_update n s).1.conn = s.conn ∧
    (iterate_update n s).2 = [] ∧
    (iterate_update n s).1.shm = s.shm ∧
    (iterate_update n s).1.data.pin_out = s.data.pin_out := by
  induction n generalizing s with
  | zero => exact ⟨rfl, rfl, rfl, rfl⟩
  | succ n ih =>
      simp only [iterate_update]
      rw [update_pins_disconnected s h]
      have ih1 := ih { s with data :=
        { s.data with error_count := (s.data.error_count + 1) % 2 ^ 32 } } h
      exact ⟨ih1.1, by simp only [List.nil_append]; exact ih1.2.1,
        ih1.2.2.1, ih1.2.2.2⟩

/-! ### The claims -/

/-- C1: in the float-only configuration, for every representable 64-bit float
value `v` (any 64-bit pattern `b`, covering NaN payloads, signed zeros and
subnormals), writing `v` to pin `i`'s inbound endpoint and running one
connected cycle stores exactly the bit pattern of `v` in pin `i`'s slot
(word `2 + i`), a pure reinterpretation; and reading the slot back through
the bit-preserving encoding yields float bits identical to `v`. -/
theorem C1_float_bits_roundtrip (s : BridgeState) (i : Fin MAX_PINS) (b : Nat)
    (hb : b < 2 ^ 64) (hconn : s.conn.shm_mapped = true)
    (hin : s.data.pin_in i = b) :
    bitsOfI64 ((update_pins s).1.shm (2 + i.val)) = b ∧
    (update_pins s).1.data.pin_out i = b := by
  constructor
  · rw [update_pins_connected_shm_pin s hconn i, hin, bitsOfI64_i64OfBits b hb]
  · rw [update_pins_connected_pin_out s hconn i, hin, bitsOfI64_i64OfBits b hb]

/-- Witness for C1 at pin 0 with a NaN-payload bit pattern. -/
theorem C1_float_bits_roundtrip_witness :
    bitsOfI64 ((update_pins sampleConnected).1.shm (2 + (0 : Fin MAX_PINS).val))
      = 0x7FF8DEADBEEF1234 ∧
    (update_pins sampleConnected).1.data.pin_out 0 = 0x7FF8DEADBEEF1234 :=
  C1_float_bits_roundtrip sampleConnected 0 0x7FF8DEADBEEF1234 (by decide) rfl rfl

/-- C2: a disconnected invocation of the update cycle performs no
shared-memory access at all (empty trace, region unchanged), leaves every
outbound endpoint and `update_count` unchanged, and bumps `error_count` by
exactly 1 (modulo the `hal_u32_t` width, and exactly `+1` whenever that does
not overflow). -/
theorem C2_disconnected_short_circuit (s : BridgeState)
    (h : s.conn.shm_mapped = false) :
    (update_pins s).2 = [] ∧
    (update_pins s).1.shm = s.shm ∧
    (update_pins s).1.data.pin_out = s.data.pin_out ∧
    (update_pins s).1.data.update_count = s.data.update_count ∧
    (update_pins s).1.data.error_count = (s.data.error_count + 1) % 2 ^ 32 ∧
    (s.data.error_count + 1 < 2 ^ 32 →
      (update_pins s).1.data.error_count = s.data.error_count + 1) := by
  rw [update_pins_disconnected s h]
  exact ⟨rfl, rfl, rfl, rfl, rfl, fun hlt => Nat.mod_eq_of_lt hlt⟩

/-- Witness for C2 on a concrete disconnected state. -/
theorem C2_disconnected_short_circuit_witness :
    (update_pins sampleDisconnected).2 = [] ∧
    (update_pins sampleDisconnected).1.shm = sampleDisconnected.shm ∧
    (update_pins sampleDisconnected).1.data.pin_out
      = sampleDisconnected.data.pin_out ∧
    (update_pins sampleDisconnected).1.data.update_count
      = sampleDisconnected.data.update_count ∧
    (update_pins sampleDisconnected).1.data.error_count
      = (sampleDisconnected.data.error_count + 1) % 2 ^ 32 ∧
    (sampleDisconnected.data.error_count + 1 < 2 ^ 32 →
      (update_pins sampleDisconnected).1.data.error_count
        = sampleDisconnected.data.error_count + 1) :=
  C2_disconnected_short_circuit sampleDisconnected rfl

/-- C3: a connected cycle's shared-memory access trace is exactly the
inbound writes to words `2 + i` for `i = 0..15` in increasing order, then
the outbound reads of words `2 + i` in increasing order, then the write of
the notification flag (word 1); the flag slot ends up holding `1` and
`update_count` is incremented.  In particular every inbound write precedes
every outbound read. -/
theorem C3_cycle_ordering (s : BridgeState) (h : s.conn.shm_mapped = true) :
    (update_pins s).2 =
      ((List.range MAX_PINS).map (fun i => Access.write (2 + i))) ++
      ((List.range MAX_PINS).map (fun i => Access.read (2 + i))) ++
      [Access.write 1] ∧
    (update_pins s).1.shm 1 = 1 ∧
    (update_pins s).1.data.update_count = (s.data.update_count + 1) % 2 ^ 32 :=
  ⟨update_pins_connected_trace s h, update_pins_connected_shm_flag s h,
    (update_pins_connected_counters s h).1⟩

/-- Witness for C3 on a concrete connected state. -/
theorem C3_cycle_ordering_witness :
    (update_pins sampleConnected).2 =
      ((List.range MAX_PINS).map (fun i => Access.write (2 + i))) ++
      ((List.range MAX_PINS).map (fun i => Access.read (2 + i))) ++
      [Access.write 1] ∧
    (update_pins sampleConnected).1.shm 1 = 1 ∧
    (update_pins sampleConnected).1.data.update_count
      = (sampleConnected.data.update_count + 1) % 2 ^ 32 :=
  C3_cycle_ordering sampleConnected rfl

/-- C4: in the multi-typed configuration (modelled from the spec, see
`coerce_inbound`), the inbound coercion is last-applicable-rule-wins:
boolean `true` with integer `0` coerces to `1`, boolean `false` with
integer `7` coerces to `7`; in general any non-zero integer endpoint value
overrides the boolean contribution, while integer `0` leaves the boolean's
contribution in place. -/
theorem C4_coercion_precedence :
    coerce_inbound true 0 = 1 ∧
    coerce_inbound false 7 = 7 ∧
    (∀ (b : Bool) (z : Int), z ≠ 0 → coerce_inbound b z = z) ∧
    (∀ b : Bool, coerce_inbound b 0 = if b then 1 else 0) := by
  refine ⟨by simp [coerce_inbound], by simp [coerce_inbound],
    fun b z hz => by simp [coerce_inbound, hz], fun b => by simp [coerce_inbound]⟩

/-- Witness for C4's non-zero-override clause at integer value 5. -/
theorem C4_coercion_precedence_witness :
    coerce_inbound true 5 = 5 :=
  C4_coercion_precedence.2.2.1 true 5 (by decide)

/-- C5: the slot address for pin `i` is `2 + i`, the same pure constant
function everywhere it is used: a connected cycle writes pin `i`'s inbound
value at word `slot_address i` and its trace reads word `slot_address i`
back in the outbound pass. -/
theorem C5_slot_address_stable (s : BridgeState) (i : Fin MAX_PINS)
    (h : s.conn.shm_mapped = true) :
    (∀ p : Nat, slot_address p = 2 + p) ∧
    Access.write (slot_address i.val) ∈ (update_pins s).2 ∧
    Access.read (slot_address i.val) ∈ (update_pins s).2 ∧
    (update_pins s).1.shm (slot_address i.val) = i64OfBits (s.data.pin_in i) := by
  have hlt := i.isLt
  refine ⟨fun p => rfl, ?_, ?_, ?_⟩
  · rw [update_pins_connected_trace s h]
    simp only [List.mem_append, List.mem_map, List.mem_range, slot_address]
    exact Or.inl (Or.inl ⟨i.val, hlt, rfl⟩)
  · rw [update_pins_connected_trace s h]
    simp only [List.mem_append, List.mem_map, List.mem_range, slot_address]
    exact Or.inl (Or.inr ⟨i.val, hlt, rfl⟩)
  · exact update_pins_connected_shm_pin s h i

/-- Witness for C5 at pin 3 of a concrete connected state. -/
theorem C5_slot_address_stable_witness :
    (∀ p : Nat, slot_address p = 2 + p) ∧
    Access.write (slot_address (3 : Fin MAX_PINS).val)
      ∈ (update_pins sampleConnected).2 ∧
    Access.read (slot_address (3 : Fin MAX_PINS).val)
      ∈ (update_pins sampleConnected).2 ∧
    (update_pins sampleConnected).1.shm (slot_address (3 : Fin MAX_PINS).val)
      = i64OfBits (sampleConnected.data.pin_in 3) :=
  C5_slot_address_stable sampleConnected 3 rfl

/-- C6: when the one-time acquisition fails (open failure or mmap failure),
the component reports Disconnected on the `connected` pin, holds no mapping
and no file descriptor, keeps running, and every one of the `n` subsequent
update-cycle invocations performs no shared-memory access and never changes
the connection state — the acquisition is never retried. -/
theorem C6_acquire_failure_degraded (env : AcquireEnv) (s : BridgeState) (n : Nat)
    (henv : env = AcquireEnv.openFail ∨ ∃ fd, env = AcquireEnv.mmapFail fd)
    (h0 : s.conn.shm_mapped = false) :
    (startup_connect env s).data.connected = false ∧
    (startup_connect env s).conn.shm_mapped = false ∧
    (startup_connect env s).conn.shm_fd = -1 ∧
    (iterate_update n (startup_connect env s)).2 = [] ∧
    (iterate_update n (startup_connect env s)).1.conn = (startup_connect env s).conn ∧
    (iterate_update n (startup_connect env s)).1.shm = (startup_connect env s).shm := by
  have hconn : (startup_connect env s).data.connected = false ∧
      (startup_connect env s).conn.shm_mapped = false ∧
      (startup_connect env s).conn.shm_fd = -1 := by
    rcases henv with hop | ⟨fd, hmm⟩
    · subst hop
      simp [startup_connect, map_shared_memory, h0]
    · subst hmm
      simp [startup_connect, map_shared_memory]
  have hit := iterate_update_disconnected n (startup_connect env s) hconn.2.1
  exact ⟨hconn.1, hconn.2.1, hconn.2.2, hit.2.1, hit.1, hit.2.2.1⟩

/-- Witness for C6: open failure on a concrete initial state, three cycles. -/
theorem C6_acquire_failure_degraded_witness :
    (startup_connect AcquireEnv.openFail sampleDisconnected).data.connected = false ∧
    (startup_connect AcquireEnv.openFail sampleDisconnected).conn.shm_mapped = false ∧
    (startup_connect AcquireEnv.openFail sampleDisconnected).conn.shm_fd = -1 ∧
    (iterate_update 3 (startup_connect AcquireEnv.openFail sampleDisconnected)).2 = [] ∧
    (iterate_update 3 (startup_connect AcquireEnv.openFail sampleDisconnected)).1.conn
      = (startup_connect AcquireEnv.openFail sampleDisconnected).conn ∧
    (iterate_update 3 (startup_connect AcquireEnv.openFail sampleDisconnected)).1.shm
      = (startup_connect AcquireEnv.openFail sampleDisconnected).shm :=
  C6_acquire_failure_degraded AcquireEnv.openFail sampleDisconnected 3
    (Or.inl rfl) rfl

/-- C7: `unmap_shared_memory` (release) is idempotent — after one call the
mapping is gone and the descriptor is `-1`; a second call changes nothing
and issues no `munmap`/`close` system call; and calling it on a state where
nothing was ever acquired is a no-op.  (The descriptor hypothesis `-1 ≤ fd`
holds in every reachable state: the globals start at `-1` and are only ever
set to `-1` or to a valid descriptor.) -/
theorem C7_release_idempotent (c : ConnState) (hfd : -1 ≤ c.shm_fd) :
    (unmap_shared_memory c).1.shm_mapped = false ∧
    (unmap_shared_memory c).1.shm_fd = -1 ∧
    unmap_shared_memory (unmap_shared_memory c).1 = ((unmap_shared_memory c).1, []) ∧
    unmap_shared_memory { shm_mapped := false, shm_fd := -1 }
      = ({ shm_mapped := false, shm_fd := -1 }, []) := by
  obtain ⟨m, fd⟩ := c
  have hcase : fd = -1 ∨ 0 ≤ fd := by
    simp only [ConnState.shm_fd] at hfd
    omega
  rcases hcase with rfl | hpos
  · cases m <;> simp [unmap_shared_memory]
  · cases m <;> simp [unmap_shared_memory, ge_iff_le, hpos]

/-- Witness for C7 on a fully-acquired concrete state. -/
theorem C7_release_idempotent_witness :
    (unmap_shared_memory { shm_mapped := true, shm_fd := 5 }).1.shm_mapped = false ∧
    (unmap_shared_memory { shm_mapped := true, shm_fd := 5 }).1.shm_fd = -1 ∧
    unmap_shared_memory (unmap_shared_memory { shm_mapped := true, shm_fd := 5 }).1
      = ((unmap_shared_memory { shm_mapped := true, shm_fd := 5 }).1, []) ∧
    unmap_shared_memory { shm_mapped := false, shm_fd := -1 }
      = ({ shm_mapped := false, shm_fd := -1 }, []) :=
  C7_release_idempotent { shm_mapped := true, shm_fd := 5 } (by decide)

/-- C8: the two `hal_u32_t` counters each move by exactly one per
invocation — `update_count` on a connected cycle, `error_count` on a
disconnected one, the other staying put — with wrap-around modulo `2^32`,
and both stay within the unsigned 32-bit range; wrapping is ordinary
arithmetic here, no operation treats it as an error. -/
theorem C8_counters_wrap (s : BridgeState)
    (hu : s.data.update_count < 2 ^ 32) (he : s.data.error_count < 2 ^ 32) :
    (s.conn.shm_mapped = true →
      (update_pins s).1.data.update_count = (s.data.update_count + 1) % 2 ^ 32 ∧
      (update_pins s).1.data.error_count = s.data.error_count) ∧
    (s.conn.shm_mapped = false →
      (update_pins s).1.data.error_count = (s.data.error_count + 1) % 2 ^ 32 ∧
      (update_pins s).1.data.update_count = s.data.update_count) ∧
    (update_pins s).1.data.update_count < 2 ^ 32 ∧
    (update_pins s).1.data.error_count < 2 ^ 32 := by
  by_cases h : s.conn.shm_mapped = true
  · have hc := update_pins_connected_counters s h
    refine ⟨fun _ => hc, fun hfalse => ?_, ?_, ?_⟩
    · exact absurd hfalse (by simp [h])
    · rw [hc.1]
      exact Nat.mod_lt _ (by norm_num)
    · rw [hc.2]
      exact he
  · have hf : s.conn.shm_mapped = false := by
      cases hm : s.conn.shm_mapped
      · rfl
      · exact absurd hm h
    rw [update_pins_disconnected s hf]
    refine ⟨fun htrue => ?_, fun _ => ⟨rfl, rfl⟩, hu, Nat.mod_lt _ (by norm_num)⟩
    exact absurd htrue (by simp [hf])

/-- Witness for C8 on a concrete connected state. -/
theorem C8_counters_wrap_witness :
    (sampleConnected.conn.shm_mapped = true →
      (update_pins sampleConnected).1.data.update_count
        = (sampleConnected.data.update_count + 1) % 2 ^ 32 ∧
      (update_pins sampleConnected).1.data.error_count
        = sampleConnected.data.error_count) ∧
    (sampleConnected.conn.shm_mapped = false →
      (update_pins sampleConnected).1.data.error_count
        = (sampleConnected.data.error_count + 1) % 2 ^ 32 ∧
      (update_pins sampleConnected).1.data.update_count
        = sampleConnected.data.update_count) ∧
    (update_pins sampleConnected).1.data.update_count < 2 ^ 32 ∧
    (update_pins sampleConnected).1.data.error_count < 2 ^ 32 :=
  C8_counters_wrap sampleConnected (by decide) (by decide)

/-- C9: the bridge never writes word 0 (the peer-published pin count): on
any invocation word 0 keeps its prior value, and every write in the access
trace targets word 1 (the notification flag) or a pin slot `2 + i`,
`i < MAX_PINS`. -/
theorem C9_word_zero_untouched (s : BridgeState) :
    (update_pins s).1.shm 0 = s.shm 0 ∧
    (∀ a ∈ (update_pins s).2, a.isWrite = true → a.idx ≠ 0) ∧
    (∀ a ∈ (update_pins s).2, a.isWrite = true →
      a.idx = 1 ∨ (2 ≤ a.idx ∧ a.idx < 2 + MAX_PINS)) := by
  by_cases h : s.conn.shm_mapped = true
  · refine ⟨update_pins_connected_shm_frame s h 0 (Or.inl rfl), ?_, ?_⟩
    · rw [update_pins_connected_trace s h]
      decide
    · rw [update_pins_connected_trace s h]
      decide
  · have hf : s.conn.shm_mapped = false := by
      cases hm : s.conn.shm_mapped
      · rfl
      · exact absurd hm h
    rw [update_pins_disconnected s hf]
    exact ⟨rfl, fun a ha => absurd ha (List.not_mem_nil a),
      fun a ha => absurd ha (List.not_mem_nil a)⟩

/-- C10: every shared-memory access of a connected cycle stays inside the
4096-byte (512-word) region: each touched word index is the flag word 1 or
a pin slot in `[2, 18)`, hence at most 17 and strictly below 512; index 17
(pin 15's slot) is actually both written and read, so 17 is the highest
index touched. -/
theorem C10_accesses_in_bounds (s : BridgeState)
    (h : s.conn.shm_mapped = true) :
    (∀ a ∈ (update_pins s).2,
      (a.idx = 1 ∨ (2 ≤ a.idx ∧ a.idx ≤ 17)) ∧ a.idx < REGION_WORDS) ∧
    Access.write 17 ∈ (update_pins s).2 ∧
    Access.read 17 ∈ (update_pins s).2 := by
  rw [update_pins_connected_trace s h]
  decide

/-- Witness for C10 on a concrete connected state. -/
theorem C10_accesses_in_bounds_witness :
    (∀ a ∈ (update_pins sampleConnected).2,
      (a.idx = 1 ∨ (2 ≤ a.idx ∧ a.idx ≤ 17)) ∧ a.idx < REGION_WORDS) ∧
    Access.write 17 ∈ (update_pins sampleConnected).2 ∧
    Access.read 17 ∈ (update_pins sampleConnected).2 :=
  C10_accesses_in_bounds sampleConnected rfl

/-- Witness for C9 on a concrete connected state. -/
theorem C9_word_zero_untouched_witness :
    (update_pins sampleConnected).1.shm 0 = sampleConnected.shm 0 ∧
    (∀ a ∈ (update_pins sampleConnected).2, a.isWrite = true → a.idx ≠ 0) ∧
    (∀ a ∈ (update_pins sampleConnected).2, a.isWrite = true →
      a.idx = 1 ∨ (2 ≤ a.idx ∧ a.idx < 2 + MAX_PINS)) :=
  C9_word_zero_untouched sampleConnected
